import Mathlib

/-!
Shallow embedding of `src/whatsapp_chat_reader/whatsapp_chat_reader.py`.

A chat file is modelled as the list of its physical lines (newline-free
strings, as produced by iterating over the file).  Python dictionaries
`{'Date': ..., 'Time': ..., 'Person': ..., 'Message': ...}` with values of
type `Optional[str]` become the structure `ChatEntry` with `Option String`
fields.  The one exception-raising code path (`filter_str in entry[...]`
with a `None` field, a `TypeError` in Python) is modelled with `Except Unit`.
Python's `str.strip` is modelled over the four ASCII whitespace characters
recognised by `Char.isWhitespace`; the regex digit class is modelled by
`Char.isDigit`.
-/

/-- One parsed chat record: the Python dict with keys
`Date`, `Time`, `Person`, `Message`, each of type `Optional[str]`. -/
structure ChatEntry where
  date : Option String
  time : Option String
  person : Option String
  message : Option String
  deriving DecidableEq, Repr

/-- The `By` enum selecting the field that `get_filtered_chat` filters on. -/
inductive By
  | Person
  | Date
  | Message
  deriving DecidableEq, Repr

/-- Python truthiness of an `Optional[str]` value: `None` and `''` are falsy. -/
def truthyStr : Option String → Bool
  | none => false
  | some s => decide (s ≠ "")

/-- True for every character except the two directionality marks
U+200E and U+200F. -/
def notMark (c : Char) : Bool :=
  decide (c ≠ '\u200E') && decide (c ≠ '\u200F')

/-- Models `re.sub(the mark class, '', line)`: delete the two
directionality mark characters. -/
def removeMarks (s : String) : String :=
  String.mk (s.data.filter notMark)

/-- Python `str.strip()` on a character list: drop whitespace from both
ends. -/
def stripChars (l : List Char) : List Char :=
  ((l.dropWhile Char.isWhitespace).reverse.dropWhile Char.isWhitespace).reverse

/-- Python `str.strip()`. -/
def pyStrip (s : String) : String :=
  String.mk (stripChars s.data)

/-- The part of the header regex after the literal 21-character prefix
`[dd.dd.dd, dd:dd:dd] `: the greedy group `([^:]+)` is the maximal run of
non-colon characters, which must be non-empty and be followed by the
literal `: ` and a non-empty remainder `(.+)$`. -/
def parseTail (rest : List Char) : Option (List Char × List Char) :=
  match rest.dropWhile (fun c => c != ':') with
  | ':' :: ' ' :: ms =>
    if (rest.takeWhile (fun c => c != ':')).isEmpty || ms.isEmpty then none
    else some (rest.takeWhile (fun c => c != ':'), ms)
  | _ => none

/-- The full header regex
`^\[(\d{2}\.\d{2}\.\d{2}), (\d{2}:\d{2}:\d{2})] ([^:]+): (.+)$` as a
character-list matcher.  The prefix up to `] ` is fixed-width, so matching
it is positional; on success the four captured groups are returned. -/
def parseHeaderChars : List Char → Option (List Char × List Char × List Char × List Char)
  | '[' :: d1 :: d2 :: '.' :: mo1 :: mo2 :: '.' :: y1 :: y2 :: ',' :: ' ' ::
      h1 :: h2 :: ':' :: mi1 :: mi2 :: ':' :: s1 :: s2 :: ']' :: ' ' :: rest =>
    if d1.isDigit && d2.isDigit && mo1.isDigit && mo2.isDigit && y1.isDigit && y2.isDigit &&
        h1.isDigit && h2.isDigit && mi1.isDigit && mi2.isDigit && s1.isDigit && s2.isDigit then
      match parseTail rest with
      | some (p, m) =>
        some ([d1, d2, '.', mo1, mo2, '.', y1, y2],
              [h1, h2, ':', mi1, mi2, ':', s1, s2], p, m)
      | none => none
    else none
  | _ => none

/-- Models `split_chat_line`: strip the directionality marks, match the header
pattern; on a match return the four groups (message stripped), otherwise
return the all-`None` record. -/
def split_chat_line (line : String) : ChatEntry :=
  match parseHeaderChars (removeMarks line).data with
  | some (d, t, p, m) =>
    ⟨some (String.mk d), some (String.mk t), some (String.mk p), some (pyStrip (String.mk m))⟩
  | none => ⟨none, none, none, none⟩

/-- One iteration of the loop body of `WhatsAppChatReader.__read_messages`:
the state is the `current_message` slot together with the committed chat
list. -/
def stepLine (st : Option ChatEntry × List ChatEntry) (raw : String) :
    Option ChatEntry × List ChatEntry :=
  let line := pyStrip raw
  if line = "" then st
  else
    let cl := split_chat_line line
    if truthyStr cl.date then
      match st.1 with
      | some cur => (some cl, st.2 ++ [cur])
      | none => (some cl, st.2)
    else
      match st.1 with
      | some cur =>
        (some { cur with message := cur.message.map (fun m => m ++ "\n" ++ line) }, st.2)
      | none => st

/-- Models `WhatsAppChatReader.__read_messages`, as a function from the file's
lines to the chat list: fold the loop body over the lines and commit the
pending `current_message` at end of file. -/
def read_messages (lines : List String) : List ChatEntry :=
  match lines.foldl stepLine (none, []) with
  | (some cur, chat) => chat ++ [cur]
  | (none, chat) => chat

/-- Models `WhatsAppChatReader.get_persons`: the distinct truthy `Person` values.
The Python set comprehension is modelled as a deduplicated list; only
membership in the result is meaningful. -/
def get_persons (chat : List ChatEntry) : List String :=
  ((chat.filterMap (fun e => e.person)).filter (fun s => s != "")).dedup

/-- Models `WhatsAppChatReader.remove_person`: keep the entries whose `Person`
value differs from `person` (Python `!=`; `None != person` is `True`). -/
def remove_person (chat : List ChatEntry) (person : String) : List ChatEntry :=
  chat.filter (fun e => e.person != some person)

/-- Models `WhatsAppChatReader.rename_person`: rewrite `Person` to `new_name` on
every entry whose `Person` equals `person` (Python `==`; `None == person`
is `False`). -/
def rename_person (chat : List ChatEntry) (person new_name : String) : List ChatEntry :=
  chat.map (fun e => if e.person == some person then { e with person := some new_name } else e)

/-- Python substring containment `needle in hay` on character lists. -/
def subOfChars (needle : List Char) : List Char → Bool
  | [] => needle.isEmpty
  | c :: t => needle.isPrefixOf (c :: t) || subOfChars needle t

/-- Python `needle in hay` for strings. -/
def pyIn (needle hay : String) : Bool :=
  subOfChars needle.data hay.data

/-- Python `any(filter_str in field for filter_str in filters)` where
`field : Optional[str]`: with a non-empty filter list and a `None` field
the first membership test raises `TypeError`, modelled as `Except.error`. -/
def pyAnyIn (filters : List String) (field : Option String) : Except Unit Bool :=
  match filters with
  | [] => Except.ok false
  | _ :: _ =>
    match field with
    | none => Except.error ()
    | some s => Except.ok (filters.any (fun f => pyIn f s))

/-- A Python list comprehension `[e for e in chat if pred e]` whose
predicate may raise: the first raising element aborts the whole
comprehension. -/
def filterExc (pred : ChatEntry → Except Unit Bool) : List ChatEntry → Except Unit (List ChatEntry)
  | [] => Except.ok []
  | e :: es =>
    match pred e with
    | Except.error u => Except.error u
    | Except.ok b =>
      match filterExc pred es with
      | Except.error u => Except.error u
      | Except.ok rest => Except.ok (if b then e :: rest else rest)

/-- Models `WhatsAppChatReader.get_filtered_chat`. -/
def get_filtered_chat (chat : List ChatEntry) (filters : List String) (b : By) :
    Except Unit (List ChatEntry) :=
  match b with
  | By.Person => filterExc (fun e => pyAnyIn filters e.person) chat
  | By.Date => filterExc (fun e => pyAnyIn filters e.date) chat
  | By.Message => filterExc (fun e => pyAnyIn filters e.message) chat

/-- All four fields of an entry are populated. -/
def allSome (e : ChatEntry) : Bool :=
  e.date.isSome && e.time.isSome && e.person.isSome && e.message.isSome

/-- Store states reachable through the class API: construction from some
file followed by any sequence of `remove_person` and `rename_person`
calls. -/
inductive Reachable : List ChatEntry → Prop
  | base (lines : List String) : Reachable (read_messages lines)
  | remove (chat : List ChatEntry) (name : String) :
      Reachable chat → Reachable (remove_person chat name)
  | rename (chat : List ChatEntry) (old new : String) :
      Reachable chat → Reachable (rename_person chat old new)

/-- Reassembling a line `[date, time] person: message` from parsed fields. -/
def reconLine (d t p m : String) : String :=
  "[" ++ d ++ ", " ++ t ++ "] " ++ p ++ ": " ++ m

/-- Invariant of the read loop state: the pending entry (if any) and every
committed entry have all four fields populated. -/
def stInv (st : Option ChatEntry × List ChatEntry) : Prop :=
  (∀ e, st.1 = some e → allSome e = true) ∧ (∀ e ∈ st.2, allSome e = true)

/-- A small concrete store used to instantiate theorems with hypotheses. -/
def demoChat : List ChatEntry :=
  [⟨some "01.01.23", some "10:00:00", some "Alice", some "Hello"⟩,
   ⟨some "01.01.23", some "10:00:05", some "Bob", some "Hi!"⟩]

/-! ### General lemmas about the embedded operations -/

theorem filterExc_const_false (pred : ChatEntry → Except Unit Bool)
    (h : ∀ e, pred e = Except.ok false) :
    ∀ chat, filterExc pred chat = Except.ok [] := by
  intro chat
  induction chat with
  | nil => rfl
  | cons e es ih => simp [filterExc, h, ih]

theorem isPrefixOf_self (l : List Char) : l.isPrefixOf l = true := by
  induction l with
  | nil => rfl
  | cons c t ih => simp [List.isPrefixOf, ih]

theorem subOfChars_self (l : List Char) : subOfChars l l = true := by
  cases l with
  | nil => rfl
  | cons c t => simp [subOfChars, isPrefixOf_self]

theorem pyIn_self (s : String) : pyIn s s = true :=
  subOfChars_self s.data

/-- The parser on any line: either all four fields are populated or all
four are absent (claim C2: no partially filled record, and as a total
function it raises no exception). -/
theorem c2_split_all_or_none (line : String) :
    (∃ d t p m, split_chat_line line = ⟨some d, some t, some p, some m⟩) ∨
      split_chat_line line = ⟨none, none, none, none⟩ := by
  cases hE : parseHeaderChars (removeMarks line).data with
  | none => exact Or.inr (by simp [split_chat_line, hE])
  | some q =>
    obtain ⟨d, t, p, m⟩ := q
    exact Or.inl ⟨String.mk d, String.mk t, String.mk p, pyStrip (String.mk m),
      by simp [split_chat_line, hE]⟩

/-- Claim C3 evaluated at the failing input: filtering a store that holds
an entry with an absent `Person` field raises (Python `TypeError`,
modelled as `Except.error`) instead of omitting the entry. -/
theorem c3_none_field_error :
    get_filtered_chat [⟨some "01.01.23", some "10:00:00", none, some "Hi"⟩]
      ["Alice"] By.Person = Except.error () := rfl

/-- Claim C10: an empty filter list makes every entry fail the
`any`-of-substrings test, so the result is the empty list, not the
unfiltered chat, for all three filter modes. -/
theorem c10_empty_filters (chat : List ChatEntry) (b : By) :
    get_filtered_chat chat [] b = Except.ok [] := by
  cases b <;> exact filterExc_const_false _ (fun e => rfl) chat

/-- Counterexample to claim C5 as stated: a continuation line is appended
to the stored message with its directionality marks intact, so a file
containing U+200E parses differently from the same file with the mark
removed. -/
theorem c5_counterexample :
    read_messages ["[01.01.23, 10:00:00] Alice: Hi", "x\u200Ey"] ≠
      read_messages (["[01.01.23, 10:00:00] Alice: Hi", "x\u200Ey"].map removeMarks) := by
  decide

theorem removeMarks_idem (s : String) : removeMarks (removeMarks s) = removeMarks s := by
  unfold removeMarks
  congr 1
  exact List.filter_eq_self.mpr (fun a ha => (List.mem_filter.mp ha).2)

/-- Claim C5 amended: the marks never affect the line parser itself —
`split_chat_line` returns the same record for a line and for the same line
with the marks removed (marks in continuation lines, however, are kept in
the stored message, see the counterexample). -/
theorem c5_marks_line_invariance (line : String) :
    split_chat_line (removeMarks line) = split_chat_line line := by
  unfold split_chat_line
  rw [removeMarks_idem]

/-- Counterexample to claim C9 as stated: the line
`"[01.01.23, 10:00:00] Alice:  "` (whitespace-only message group) matches
the header pattern and parses with the message trimmed to the empty
string, but reconstructing `[date, time] sender: message` from the four
fields yields a line the parser no longer matches, so the fields are not
recovered. -/
theorem c9_counterexample :
    split_chat_line "[01.01.23, 10:00:00] Alice:  " =
      ⟨some "01.01.23", some "10:00:00", some "Alice", some ""⟩ ∧
    split_chat_line (reconLine "01.01.23" "10:00:00" "Alice" "") ≠
      ⟨some "01.01.23", some "10:00:00", some "Alice", some ""⟩ := by
  exact ⟨by decide, by decide⟩

/-- Counterexample to claim C4 as stated: with the store `[Bob-entry]`,
renaming `"Alice"` to `"Bob"` touches nothing (no entry matched
`"Alice"`), yet `get_filtered_chat ["Bob"] By.Person` afterwards returns
the Bob entry — not the (empty) set of entries that previously had sender
`"Alice"` — because filtering is by substring containment of the new
name. -/
theorem c4_counterexample :
    (([⟨some "01.01.23", some "10:00:00", some "Bob", some "Hi"⟩] : List ChatEntry).filter
        (fun e => e.person == some "Alice") = []) ∧
    get_filtered_chat
        (rename_person [⟨some "01.01.23", some "10:00:00", some "Bob", some "Hi"⟩]
          "Alice" "Bob") ["Bob"] By.Person =
      Except.ok [⟨some "01.01.23", some "10:00:00", some "Bob", some "Hi"⟩] ∧
    (Except.ok [(⟨some "01.01.23", some "10:00:00", some "Bob", some "Hi"⟩ : ChatEntry)] :
        Except Unit (List ChatEntry)) ≠ Except.ok [] := by
  refine ⟨by decide, rfl, fun h => ?_⟩
  exact List.noConfusion (Except.ok.inj h)

/-- Claim C8: `rename_person` preserves the length and rewrites the store
pointwise — position `i` holds the old entry with only its `Person` field
rewritten to the new name when it equalled the old name, all other fields
and entries untouched. -/
theorem c8_rename_frame (chat : List ChatEntry) (old new : String) (i : Nat) :
    (rename_person chat old new).length = chat.length ∧
    (rename_person chat old new)[i]? = chat[i]?.map (fun e =>
      { e with person := if e.person == some old then some new else e.person }) := by
  constructor
  · simp [rename_person]
  · rw [rename_person, List.getElem?_map]
    cases chat[i]? with
    | none => rfl
    | some e =>
      simp only [Option.map_some']
      by_cases h : (e.person == some old) = true
      · simp [h]
      · simp [h]

/-- Claim C7: `remove_person` removes exactly the entries whose `Person`
equals the name — the removed name is gone from `get_persons`, the length
drops by exactly the number of exact matches, and when nothing matches
the store is unchanged. -/
theorem c7_remove_exact (chat : List ChatEntry) (name : String) :
    name ∉ get_persons (remove_person chat name) ∧
    (remove_person chat name).length +
        chat.countP (fun e => e.person == some name) = chat.length ∧
    (chat.countP (fun e => e.person == some name) = 0 →
      remove_person chat name = chat) := by
  refine ⟨?_, ?_, ?_⟩
  · intro hmem
    rw [get_persons, List.mem_dedup, List.mem_filter] at hmem
    obtain ⟨hmem, -⟩ := hmem
    rw [List.mem_filterMap] at hmem
    obtain ⟨e, he, hp⟩ := hmem
    rw [remove_person, List.mem_filter] at he
    obtain ⟨-, hne⟩ := he
    rw [bne_iff_ne] at hne
    exact hne hp
  · induction chat with
    | nil => rfl
    | cons e es ih =>
      by_cases h : (e.person == some name) = true
      · have hb : (e.person != some name) = false := by simp [bne, h]
        simp only [remove_person] at ih ⊢
        rw [List.filter_cons, List.countP_cons]
        simp only [hb, h, Bool.false_eq_true, if_false, if_true, List.length_cons]
        omega
      · have hb : (e.person != some name) = true := by simp [bne, h]
        simp only [remove_person] at ih ⊢
        rw [List.filter_cons, List.countP_cons]
        simp only [hb, h, Bool.false_eq_true, if_false, if_true, List.length_cons]
        omega
  · intro h0
    rw [List.countP_eq_zero] at h0
    rw [remove_person]
    refine List.filter_eq_self.mpr (fun e he => ?_)
    have hne := h0 e he
    rw [bne_iff_ne]
    intro hc
    exact hne (beq_iff_eq.mpr hc)

/-- Witness for C7 at a concrete store: removing the absent sender `"Zoe"`
leaves `demoChat` unchanged and `"Zoe"` is not among the senders. -/
theorem c7_remove_exact_witness :
    "Zoe" ∉ get_persons (remove_person demoChat "Zoe") ∧
    remove_person demoChat "Zoe" = demoChat :=
  ⟨(c7_remove_exact demoChat "Zoe").1,
   (c7_remove_exact demoChat "Zoe").2.2 (by decide)⟩

theorem filterExc_cons_ok (pred : ChatEntry → Except Unit Bool) (e : ChatEntry)
    (es : List ChatEntry) (b : Bool) (h : pred e = Except.ok b)
    (rest : List ChatEntry) (hr : filterExc pred es = Except.ok rest) :
    filterExc pred (e :: es) = Except.ok (if b then e :: rest else rest) := by
  simp [filterExc, h, hr]

theorem filtered_after_rename (old new : String) :
    ∀ chat : List ChatEntry,
      (∀ e ∈ chat, e.person.isSome = true ∧
        (e.person = some old ∨ pyIn new (e.person.getD "") = false)) →
      get_filtered_chat (rename_person chat old new) [new] By.Person =
        Except.ok ((chat.filter (fun e => e.person == some old)).map
          (fun e => { e with person := some new })) := by
  intro chat
  induction chat with
  | nil => intro _; rfl
  | cons e es ih =>
    intro hcov
    have ihs := ih (fun x hx => hcov x (List.mem_cons_of_mem e hx))
    obtain ⟨hsome, hd⟩ := hcov e (List.mem_cons_self e es)
    simp only [get_filtered_chat, rename_person, List.map_cons] at ihs ⊢
    by_cases hp : (e.person == some old) = true
    · have hfe : (if e.person == some old then ({ e with person := some new } : ChatEntry)
          else e) = { e with person := some new } := by
        rw [if_pos hp]
      rw [hfe]
      have hpred : pyAnyIn [new] (some new) = Except.ok true := by
        simp [pyAnyIn, pyIn_self]
      rw [filterExc_cons_ok _ _ _ true hpred _ ihs]
      rw [List.filter_cons, if_pos hp, List.map_cons]
      rfl
    · have hfe : (if e.person == some old then ({ e with person := some new } : ChatEntry)
          else e) = e := by
        rw [if_neg hp]
      rw [hfe]
      obtain ⟨s, hs⟩ := Option.isSome_iff_exists.mp hsome
      have hsne : pyIn new s = false := by
        rcases hd with hold | hfalse
        · exact absurd (beq_iff_eq.mpr hold) hp
        · rw [hs] at hfalse
          simpa using hfalse
      have hpred : pyAnyIn [new] e.person = Except.ok false := by
        rw [hs]
        simp [pyAnyIn, hsne]
      rw [filterExc_cons_ok _ _ _ false hpred _ ihs]
      rw [List.filter_cons, if_neg hp]
      simp

theorem rename_absent_noop (old new : String) :
    ∀ chat : List ChatEntry,
      chat.countP (fun e => e.person == some old) = 0 →
      rename_person chat old new = chat := by
  intro chat h0
  rw [List.countP_eq_zero] at h0
  rw [rename_person]
  conv_rhs => rw [← List.map_id chat]
  refine List.map_congr_left (fun e he => ?_)
  have hne := h0 e he
  rw [if_neg hne]
  rfl

/-- Claim C4 amended: provided every entry has a populated sender that
either equals `old` or does not contain `new` as a substring,
`rename_person old new` followed by `get_filtered_chat [new] By.Person`
returns exactly the entries that previously had sender `old` (now bearing
the new name), in their original relative order; and when no entry's
sender equals `old` the rename leaves the store unchanged.  (Without the
proviso the substring filter can also return pre-existing entries whose
sender contains `new`, see the counterexample.) -/
theorem c4_rename_filter (chat : List ChatEntry) (old new : String)
    (hcov : ∀ e ∈ chat, e.person.isSome = true ∧
      (e.person = some old ∨ pyIn new (e.person.getD "") = false)) :
    get_filtered_chat (rename_person chat old new) [new] By.Person =
      Except.ok ((chat.filter (fun e => e.person == some old)).map
        (fun e => { e with person := some new })) ∧
    (chat.countP (fun e => e.person == some old) = 0 →
      rename_person chat old new = chat) :=
  ⟨filtered_after_rename old new chat hcov, rename_absent_noop old new chat⟩

/-- Witness for the amended C4 at a concrete store. -/
theorem c4_rename_filter_witness :
    get_filtered_chat (rename_person demoChat "Alice" "Zoe") ["Zoe"] By.Person =
      Except.ok ((demoChat.filter (fun e => e.person == some "Alice")).map
        (fun e => { e with person := some "Zoe" })) ∧
    (demoChat.countP (fun e => e.person == some "Alice") = 0 →
      rename_person demoChat "Alice" "Zoe" = demoChat) :=
  c4_rename_filter demoChat "Alice" "Zoe" (by decide)

theorem stepLine_acc (o : Option ChatEntry) (acc : List ChatEntry) (raw : String) :
    stepLine (o, acc) raw =
      ((stepLine (o, []) raw).1, acc ++ (stepLine (o, []) raw).2) := by
  unfold stepLine
  by_cases hb : pyStrip raw = "" <;>
    by_cases ht : truthyStr (split_chat_line (pyStrip raw)).date = true <;>
      cases o <;> simp [hb, ht]

theorem foldl_stepLine_acc (ls : List String) (o : Option ChatEntry) (acc : List ChatEntry) :
    ls.foldl stepLine (o, acc) =
      ((ls.foldl stepLine (o, [])).1, acc ++ (ls.foldl stepLine (o, [])).2) := by
  induction ls generalizing o acc with
  | nil => simp
  | cons l ls ih =>
    simp only [List.foldl_cons]
    rcases hx : stepLine (o, []) l with ⟨s1, s2⟩
    rw [stepLine_acc o acc l, hx, ih s1 (acc ++ s2), ih s1 s2]
    simp [List.append_assoc]

theorem read_messages_eq (lines : List String) :
    read_messages lines =
      (lines.foldl stepLine (none, [])).2 ++ (lines.foldl stepLine (none, [])).1.toList := by
  rw [read_messages]
  rcases hF : lines.foldl stepLine (none, []) with ⟨o, chat⟩
  cases o <;> simp

theorem stepLine_header (o : Option ChatEntry) (acc : List ChatEntry) (h : String)
    (hh : truthyStr (split_chat_line (pyStrip h)).date = true) :
    stepLine (o, acc) h = (some (split_chat_line (pyStrip h)), acc ++ o.toList) := by
  have hb : pyStrip h ≠ "" := by
    intro he
    rw [he] at hh
    exact absurd hh (by decide)
  unfold stepLine
  cases o <;> simp [hb, hh]

theorem foldl_stepLine_cont (cs : List String) :
    ∀ (cur : ChatEntry) (acc : List ChatEntry),
      (∀ c ∈ cs, pyStrip c ≠ "" ∧ truthyStr (split_chat_line (pyStrip c)).date = false) →
      cs.foldl stepLine (some cur, acc) =
        (some { cur with
                message := cur.message.map (fun m => cs.foldl (fun a c => a ++ "\n" ++ pyStrip c) m) },
         acc) := by
  induction cs with
  | nil =>
    intro cur acc _
    obtain ⟨d0, t0, p0, m0⟩ := cur
    cases m0 <;> rfl
  | cons c cs ih =>
    intro cur acc hcs
    obtain ⟨hb, ht⟩ := hcs c (List.mem_cons_self c cs)
    have hstep : stepLine (some cur, acc) c =
        (some { cur with message := cur.message.map (fun m => m ++ "\n" ++ pyStrip c) }, acc) := by
      unfold stepLine
      simp [hb, ht]
    rw [List.foldl_cons, hstep,
      ih _ acc (fun x hx => hcs x (List.mem_cons_of_mem c hx))]
    obtain ⟨d0, t0, p0, m0⟩ := cur
    cases m0 <;> rfl

theorem read_messages_block (pre : List String) (h : String) (cs : List String)
    (hh : truthyStr (split_chat_line (pyStrip h)).date = true)
    (hcs : ∀ c ∈ cs, pyStrip c ≠ "" ∧ truthyStr (split_chat_line (pyStrip c)).date = false) :
    read_messages (pre ++ h :: cs) =
      read_messages pre ++
        [{ split_chat_line (pyStrip h) with
            message := (split_chat_line (pyStrip h)).message.map
              (fun m => cs.foldl (fun a c => a ++ "\n" ++ pyStrip c) m) }] := by
  rcases hF : pre.foldl stepLine (none, []) with ⟨o, acc⟩
  rw [read_messages_eq, List.foldl_append, hF, List.foldl_cons,
    stepLine_header o acc h hh,
    foldl_stepLine_cont cs (split_chat_line (pyStrip h)) (acc ++ o.toList) hcs,
    read_messages_eq pre, hF]
  simp [List.append_assoc]

theorem read_messages_append_header (A : List String) (h2 : String) (rest : List String)
    (hh2 : truthyStr (split_chat_line (pyStrip h2)).date = true) :
    read_messages (A ++ h2 :: rest) = read_messages A ++ read_messages (h2 :: rest) := by
  rcases hF : A.foldl stepLine (none, []) with ⟨o, acc⟩
  rw [read_messages_eq, List.foldl_append, hF, List.foldl_cons,
    stepLine_header o acc h2 hh2,
    foldl_stepLine_acc rest (some (split_chat_line (pyStrip h2))) (acc ++ o.toList),
    read_messages_eq A, hF,
    read_messages_eq (h2 :: rest), List.foldl_cons,
    stepLine_header none [] h2 hh2,
    foldl_stepLine_acc rest (some (split_chat_line (pyStrip h2)))
      ([] ++ Option.toList none)]
  simp [List.append_assoc]

/-- Claim C1: a header line followed by N non-blank continuation lines,
up to the next header line or end of file, yields exactly one stored
entry whose message is the header's own (trimmed) message followed by the
N trimmed continuation lines joined with newlines; and the final entry of
a file is committed exactly once (neither dropped nor duplicated). -/
theorem c1_multiline (pre : List String) (h : String) (cs tail : List String)
    (hh : truthyStr (split_chat_line (pyStrip h)).date = true)
    (hcs : ∀ c ∈ cs, pyStrip c ≠ "" ∧ truthyStr (split_chat_line (pyStrip c)).date = false)
    (htail : tail = [] ∨ ∃ h2 rest, tail = h2 :: rest ∧
      truthyStr (split_chat_line (pyStrip h2)).date = true) :
    read_messages (pre ++ h :: cs ++ tail) =
      read_messages pre ++
        [{ split_chat_line (pyStrip h) with
           message := (split_chat_line (pyStrip h)).message.map (fun m => cs.foldl (fun a c => a ++ "\n" ++ pyStrip c) m) }] ++
      read_messages tail := by
  rcases htail with rfl | ⟨h2, rest, rfl, hh2⟩
  · rw [List.append_nil, read_messages_block pre h cs hh hcs]
    simp [read_messages]
  · rw [show pre ++ h :: cs ++ h2 :: rest = (pre ++ h :: cs) ++ h2 :: rest by simp,
      read_messages_append_header (pre ++ h :: cs) h2 rest hh2,
      read_messages_block pre h cs hh hcs]

/-- Witness for C1: the spec's concrete scenario, a two-line entry at end
of file. -/
theorem c1_multiline_witness :
    read_messages (([] : List String) ++ "[01.01.23, 10:00:00] Alice: Hello" :: ["there"] ++ []) =
      read_messages [] ++
        [{ split_chat_line (pyStrip "[01.01.23, 10:00:00] Alice: Hello") with
           message := (split_chat_line (pyStrip "[01.01.23, 10:00:00] Alice: Hello")).message.map (fun m => (["there"] : List String).foldl (fun a c => a ++ "\n" ++ pyStrip c) m) }] ++
      read_messages [] :=
  c1_multiline [] "[01.01.23, 10:00:00] Alice: Hello" ["there"] [] (by decide) (by decide)
    (Or.inl rfl)

theorem split_header_all_some (l : String)
    (h : truthyStr (split_chat_line l).date = true) :
    allSome (split_chat_line l) = true := by
  rcases hE : parseHeaderChars (removeMarks l).data with _ | ⟨d, t, p, m⟩
  · rw [split_chat_line] at h
    rw [hE] at h
    simp [truthyStr] at h
  · rw [split_chat_line, hE]
    rfl

theorem stepLine_inv (st : Option ChatEntry × List ChatEntry) (raw : String)
    (h : stInv st) : stInv (stepLine st raw) := by
  obtain ⟨o, acc⟩ := st
  obtain ⟨h1, h2⟩ := h
  unfold stepLine
  by_cases hb : pyStrip raw = ""
  · simpa [hb, stInv] using ⟨h1, h2⟩
  · by_cases ht : truthyStr (split_chat_line (pyStrip raw)).date = true
    · cases o with
      | none =>
        simp only [hb, if_false, ht, if_true, stInv]
        exact ⟨fun e he => by
          injection he with he
          rw [← he]
          exact split_header_all_some _ ht, h2⟩
      | some cur =>
        simp only [hb, if_false, ht, if_true, stInv]
        constructor
        · intro e he
          injection he with he
          rw [← he]
          exact split_header_all_some _ ht
        · intro e he
          rcases List.mem_append.mp he with he | he
          · exact h2 e he
          · rw [List.mem_singleton.mp he]
            exact h1 cur rfl
    · cases o with
      | none =>
        simpa [hb, ht, stInv] using h2
      | some cur =>
        simp only [hb, if_false, ht, if_true, stInv]
        constructor
        · intro e he
          injection he with he
          rw [← he]
          have hcur := h1 cur rfl
          simp only [allSome, Bool.and_eq_true] at hcur ⊢
          refine ⟨hcur.1, ?_⟩
          simpa using hcur.2
        · exact h2

theorem foldl_stepLine_inv (ls : List String) :
    ∀ st : Option ChatEntry × List ChatEntry, stInv st → stInv (ls.foldl stepLine st) := by
  induction ls with
  | nil => intro st h; exact h
  | cons l ls ih =>
    intro st h
    rw [List.foldl_cons]
    exact ih _ (stepLine_inv st l h)

theorem read_messages_all_some (lines : List String) :
    ∀ e ∈ read_messages lines, allSome e = true := by
  have hinv : stInv (lines.foldl stepLine (none, [])) := by
    refine foldl_stepLine_inv lines (none, []) ⟨?_, ?_⟩
    · intro e he
      exact Option.noConfusion he
    · intro e he
      exact absurd he (List.not_mem_nil e)
  obtain ⟨h1, h2⟩ := hinv
  intro e he
  rw [read_messages_eq] at he
  rcases List.mem_append.mp he with he | he
  · exact h2 e he
  · rcases hO : (lines.foldl stepLine (none, [])).1 with _ | cur
    · rw [hO] at he
      exact absurd he (List.not_mem_nil e)
    · rw [hO] at he
      rw [Option.toList_some, List.mem_singleton.mp he] at *
      exact h1 cur hO

/-- Claim C6: every store state reachable by construction followed by any
sequence of `remove_person` and `rename_person` calls contains only
fully populated entries — no partially filled record is ever stored. -/
theorem c6_invariant (chat : List ChatEntry) (h : Reachable chat) :
    ∀ e ∈ chat, allSome e = true := by
  induction h with
  | base lines => exact read_messages_all_some lines
  | remove chat name hr ih =>
    intro e he
    simp only [remove_person] at he
    exact ih e (List.mem_of_mem_filter he)
  | rename chat old new hr ih =>
    intro e he
    simp only [rename_person] at he
    obtain ⟨x, hx, rfl⟩ := List.mem_map.mp he
    by_cases hp : (x.person == some old) = true
    · have hall := ih x hx
      simp only [allSome, Bool.and_eq_true] at hall ⊢
      rw [if_pos hp]
      exact ⟨⟨⟨hall.1.1.1, hall.1.1.2⟩, rfl⟩, hall.2⟩
    · rw [if_neg hp]
      exact ih x hx

/-- Witness for C6: the invariant evaluated at the first entry of a
concretely constructed store. -/
theorem c6_invariant_witness :
    allSome ⟨some "01.01.23", some "10:00:00", some "Alice", some "Hello"⟩ = true :=
  c6_invariant (read_messages ["[01.01.23, 10:00:00] Alice: Hello"])
    (Reachable.base ["[01.01.23, 10:00:00] Alice: Hello"])
    ⟨some "01.01.23", some "10:00:00", some "Alice", some "Hello"⟩ (by decide)

theorem head?_dropWhile_false (p : Char → Bool) (l : List Char) :
    ∀ c, (l.dropWhile p).head? = some c → p c = false := by
  induction l with
  | nil => intro c h; exact Option.noConfusion h
  | cons a t ih =>
    intro c h
    rw [List.dropWhile_cons] at h
    by_cases hp : p a = true
    · rw [if_pos hp] at h
      exact ih c h
    · rw [if_neg hp] at h
      injection h with h
      rw [← h]
      exact Bool.eq_false_iff.mpr hp

theorem dropWhile_eq_self_of_head (p : Char → Bool) (l : List Char)
    (h : ∀ c, l.head? = some c → p c = false) : l.dropWhile p = l := by
  cases l with
  | nil => rfl
  | cons a t =>
    rw [List.dropWhile_cons, if_neg (by simp [h a rfl])]

theorem head?_of_front (l₁ l₂ : List Char) (h : l₁ <+: l₂) (c : Char)
    (hc : l₁.head? = some c) : l₂.head? = some c := by
  obtain ⟨t, rfl⟩ := h
  cases l₁ with
  | nil => exact Option.noConfusion hc
  | cons a l =>
    simp only [List.cons_append, List.head?_cons] at hc ⊢
    exact hc

theorem stripChars_idem (l : List Char) : stripChars (stripChars l) = stripChars l := by
  have hA : ∀ c, (l.dropWhile Char.isWhitespace).head? = some c → Char.isWhitespace c = false :=
    head?_dropWhile_false _ l
  have hB : ∀ c, ((l.dropWhile Char.isWhitespace).reverse.dropWhile Char.isWhitespace).head? =
      some c → Char.isWhitespace c = false :=
    head?_dropWhile_false _ _
  have hpre : ((l.dropWhile Char.isWhitespace).reverse.dropWhile
      Char.isWhitespace).reverse <+: l.dropWhile Char.isWhitespace := by
    have h1 : (l.dropWhile Char.isWhitespace).reverse.dropWhile Char.isWhitespace <:+
        (l.dropWhile Char.isWhitespace).reverse := List.dropWhile_suffix _
    have h2 := List.reverse_prefix.mpr h1
    rwa [List.reverse_reverse] at h2
  unfold stripChars
  rw [dropWhile_eq_self_of_head Char.isWhitespace
      (((l.dropWhile Char.isWhitespace).reverse.dropWhile Char.isWhitespace).reverse)
      (fun c hc => hA c (head?_of_front _ _ hpre c hc)),
    List.reverse_reverse,
    dropWhile_eq_self_of_head Char.isWhitespace
      ((l.dropWhile Char.isWhitespace).reverse.dropWhile Char.isWhitespace) hB]

theorem mem_of_mem_stripChars (l : List Char) (c : Char) (h : c ∈ stripChars l) : c ∈ l := by
  unfold stripChars at h
  rw [List.mem_reverse] at h
  have h2 := (List.dropWhile_suffix Char.isWhitespace).subset h
  rw [List.mem_reverse] at h2
  exact (List.dropWhile_suffix Char.isWhitespace).subset h2

theorem pyStrip_idem (s : String) : pyStrip (pyStrip s) = pyStrip s := by
  show String.mk (stripChars (stripChars s.data)) = String.mk (stripChars s.data)
  rw [stripChars_idem]

theorem takeWhile_colon_eq (p l : List Char) (hp : ∀ c ∈ p, (c != ':') = true) :
    (p ++ ':' :: l).takeWhile (fun c => c != ':') = p := by
  induction p with
  | nil => simp [List.takeWhile_cons]
  | cons a q ih =>
    have ha := hp a (List.mem_cons_self a q)
    simp only [List.cons_append, List.takeWhile_cons, ha, if_true,
      ih (fun c hc => hp c (List.mem_cons_of_mem a hc))]

theorem dropWhile_colon_eq (p l : List Char) (hp : ∀ c ∈ p, (c != ':') = true) :
    (p ++ ':' :: l).dropWhile (fun c => c != ':') = ':' :: l := by
  induction p with
  | nil => simp [List.dropWhile_cons]
  | cons a q ih =>
    have ha := hp a (List.mem_cons_self a q)
    simp only [List.cons_append, List.dropWhile_cons, ha, if_true,
      ih (fun c hc => hp c (List.mem_cons_of_mem a hc))]

theorem parseTail_app (p m : List Char) (hp0 : p ≠ []) (hm0 : m ≠ [])
    (hp : ∀ c ∈ p, (c != ':') = true) :
    parseTail (p ++ ':' :: ' ' :: m) = some (p, m) := by
  unfold parseTail
  rw [dropWhile_colon_eq p (' ' :: m) hp, takeWhile_colon_eq p (' ' :: m) hp]
  simp [hp0, hm0]

theorem parseTail_inv (rest p m : List Char) (h : parseTail rest = some (p, m)) :
    rest = p ++ ':' :: ' ' :: m ∧ p ≠ [] ∧ m ≠ [] ∧ (∀ c ∈ p, (c != ':') = true) := by
  unfold parseTail at h
  split at h
  case _ ms heq =>
    split at h
    · exact Option.noConfusion h
    case _ hcond =>
      injection h with h
      injection h with h1 h2
      rw [Bool.or_eq_true, not_or] at hcond
      obtain ⟨hc1, hc2⟩ := hcond
      refine ⟨?_, ?_, ?_, ?_⟩
      · rw [← h1, ← h2, ← heq]
        exact (List.takeWhile_append_dropWhile _ _).symm
      · rw [← h1]
        simpa using hc1
      · rw [← h2]
        simpa using hc2
      · intro c hc
        rw [← h1] at hc
        exact List.mem_takeWhile_imp (p := fun c => c != ':') hc
  case _ => exact Option.noConfusion h

theorem parseHeaderChars_inv (cs d t p m : List Char)
    (h : parseHeaderChars cs = some (d, t, p, m)) :
    (∃ a b c2 e f g, d = [a, b, '.', c2, e, '.', f, g] ∧
      a.isDigit = true ∧ b.isDigit = true ∧ c2.isDigit = true ∧ e.isDigit = true ∧
      f.isDigit = true ∧ g.isDigit = true) ∧
    (∃ a b c2 e f g, t = [a, b, ':', c2, e, ':', f, g] ∧
      a.isDigit = true ∧ b.isDigit = true ∧ c2.isDigit = true ∧ e.isDigit = true ∧
      f.isDigit = true ∧ g.isDigit = true) ∧
    p ≠ [] ∧ (∀ c ∈ p, (c != ':') = true) ∧ m ≠ [] ∧
    (∀ c ∈ p, c ∈ cs) ∧ (∀ c ∈ m, c ∈ cs) := by
  unfold parseHeaderChars at h
  split at h
  case _ d1 d2 mo1 mo2 y1 y2 k1 k2 mi1 mi2 s1 s2 rest =>
    split at h
    case _ hdig =>
      split at h
      case _ p0 m0 heq =>
        injection h with h
        simp only [Prod.mk.injEq] at h
        obtain ⟨hd, ht2, hp2, hm2⟩ := h
        subst hp2 hm2 hd ht2
        obtain ⟨hrest, hp0, hm0, hpcol⟩ := parseTail_inv rest p0 m0 heq
        simp only [Bool.and_eq_true] at hdig
        obtain ⟨⟨⟨⟨⟨⟨⟨⟨⟨⟨⟨hq1, hq2⟩, hq3⟩, hq4⟩, hq5⟩, hq6⟩, hq7⟩, hq8⟩,
          hq9⟩, hq10⟩, hq11⟩, hq12⟩ := hdig
        refine ⟨⟨d1, d2, mo1, mo2, y1, y2, rfl, hq1, hq2, hq3, hq4, hq5, hq6⟩,
          ⟨k1, k2, mi1, mi2, s1, s2, rfl, hq7, hq8, hq9, hq10, hq11, hq12⟩,
          hp0, hpcol, hm0, ?_, ?_⟩
        · intro c hc
          repeat apply List.mem_cons_of_mem
          rw [hrest]
          exact List.mem_append_left _ hc
        · intro c hc
          repeat apply List.mem_cons_of_mem
          rw [hrest]
          refine List.mem_append_right _ ?_
          exact List.mem_cons_of_mem _ (List.mem_cons_of_mem _ hc)
      case _ => exact Option.noConfusion h
    case _ => exact Option.noConfusion h
  case _ => exact Option.noConfusion h

theorem notMark_of_isDigit (c : Char) (h : c.isDigit = true) : notMark c = true := by
  unfold notMark
  have h1 : c ≠ '\u200E' := by
    intro he
    rw [he] at h
    exact absurd h (by decide)
  have h2 : c ≠ '\u200F' := by
    intro he
    rw [he] at h
    exact absurd h (by decide)
  simp [h1, h2]

theorem reconLine_data (d t p m : String) :
    (reconLine d t p m).data =
      '[' :: (d.data ++ ',' :: ' ' :: (t.data ++ ']' :: ' ' :: (p.data ++ ':' :: ' ' :: m.data))) := by
  have h1 : ("[" : String).data = ['['] := rfl
  have h2 : (", " : String).data = [',', ' '] := rfl
  have h3 : ("] " : String).data = [']', ' '] := rfl
  have h4 : (": " : String).data = [':', ' '] := rfl
  simp [reconLine, h1, h2, h3, h4]

/-- Claim C9 amended: for every line matching the header pattern whose
trimmed message is non-empty, parsing and then reconstructing
`[date, time] sender: message` from the four returned fields and parsing
again recovers exactly the same four field values.  (For a matching line
whose message group is all whitespace the trimmed message is empty and the
reconstruction no longer matches `(.+)`, see the counterexample.) -/
theorem c9_round_trip (line d t p m : String)
    (hp : split_chat_line line = ⟨some d, some t, some p, some m⟩) (hm : m ≠ "") :
    split_chat_line (reconLine d t p m) = ⟨some d, some t, some p, some m⟩ := by
  unfold split_chat_line at hp
  rcases hE : parseHeaderChars (removeMarks line).data with _ | ⟨dl, tl, pl, ml⟩
  · rw [hE] at hp
    simp at hp
  · rw [hE] at hp
    simp only [ChatEntry.mk.injEq, Option.some.injEq] at hp
    obtain ⟨hd, ht2, hp2, hm2⟩ := hp
    subst hd ht2 hp2 hm2
    obtain ⟨⟨a, b, c2, e, f, g, hdl, ha, hb, hcc, he, hf, hg⟩,
      ⟨a2, b2, c3, e3, f3, g3, htl, ha2, hb2, hc3, he3, hf3, hg3⟩,
      hpl0, hplcol, hml0, hplcs, hmlcs⟩ := parseHeaderChars_inv _ _ _ _ _ hE
    have hcs : ∀ c ∈ (removeMarks line).data, notMark c = true := by
      intro c hc
      exact (List.mem_filter.mp hc).2
    have hplfree : ∀ c ∈ pl, notMark c = true := fun c hc => hcs c (hplcs c hc)
    have hmlfree : ∀ c ∈ stripChars ml, notMark c = true :=
      fun c hc => hcs c (hmlcs c (mem_of_mem_stripChars ml c hc))
    have hml' : stripChars ml ≠ [] := by
      intro h0
      apply hm
      show String.mk (stripChars ml) = ""
      rw [h0]
    have hmd : (pyStrip (String.mk ml)).data = stripChars ml := rfl
    have hparse : parseHeaderChars
        (reconLine (String.mk dl) (String.mk tl) (String.mk pl) (pyStrip (String.mk ml))).data =
        some (dl, tl, pl, stripChars ml) := by
      rw [reconLine_data, hmd]
      rw [hdl, htl]
      simp only [List.cons_append, List.nil_append]
      simp only [parseHeaderChars]
      rw [if_pos (by simp [ha, hb, hcc, he, hf, hg, ha2, hb2, hc3, he3, hf3, hg3])]
      rw [parseTail_app pl (stripChars ml) hpl0 hml' hplcol]
    have hclean : removeMarks
        (reconLine (String.mk dl) (String.mk tl) (String.mk pl) (pyStrip (String.mk ml))) =
        reconLine (String.mk dl) (String.mk tl) (String.mk pl) (pyStrip (String.mk ml)) := by
      apply String.ext
      show (reconLine (String.mk dl) (String.mk tl) (String.mk pl)
          (pyStrip (String.mk ml))).data.filter notMark = _
      refine List.filter_eq_self.mpr ?_
      rw [reconLine_data, hmd, hdl, htl]
      simp only [List.cons_append, List.nil_append]
      simp only [List.forall_mem_cons, List.forall_mem_append]
      exact ⟨by decide, notMark_of_isDigit a ha, notMark_of_isDigit b hb, by decide,
        notMark_of_isDigit c2 hcc, notMark_of_isDigit e he, by decide,
        notMark_of_isDigit f hf, notMark_of_isDigit g hg, by decide, by decide,
        notMark_of_isDigit a2 ha2, notMark_of_isDigit b2 hb2, by decide,
        notMark_of_isDigit c3 hc3, notMark_of_isDigit e3 he3, by decide,
        notMark_of_isDigit f3 hf3, notMark_of_isDigit g3 hg3, by decide, by decide,
        hplfree, by decide, by decide, hmlfree⟩
    unfold split_chat_line
    rw [hclean, hparse]
    show (⟨some (String.mk dl), some (String.mk tl), some (String.mk pl),
        some (pyStrip (String.mk (stripChars ml)))⟩ : ChatEntry) = _
    have hms : pyStrip (String.mk (stripChars ml)) = pyStrip (String.mk ml) := by
      show String.mk (stripChars (stripChars ml)) = String.mk (stripChars ml)
      rw [stripChars_idem]
    rw [hms]

/-- Witness for the amended C9 at a concrete matching line. -/
theorem c9_round_trip_witness :
    split_chat_line (reconLine "01.01.23" "10:00:00" "Alice" "Hello") =
      ⟨some "01.01.23", some "10:00:00", some "Alice", some "Hello"⟩ :=
  c9_round_trip "[01.01.23, 10:00:00] Alice: Hello" "01.01.23" "10:00:00" "Alice" "Hello"
    (by decide) (by decide)
